import Mathlib

/-!
Shallow embedding of the `StepProgressBar` widget from
`src/itaxotools/concatenator/gui/stepprogressbar/widget.py`.

Qt-specific rendering (painters, colors, fonts) is abstracted away: the
embedding keeps the status state machine, the key dictionary, the layout
cursor arithmetic of `draw`, and the segment-style decisions of
`drawStepLines`.  Python floats are modelled as exact rationals, Python ints
as `Int`, `int(...)` truncation as `pytrunc`, and operations that can raise
(`IndexError` from `steps[-1]` on an empty list, `KeyError` from
`self.keys[key]`, `ZeroDivisionError` from `weight / totalStepWeight`) return
`Option`, with `none` for the raising runs.
-/

namespace SPB

/-- Step status, one constructor per status class of the `states` module
(`Pending`, `Active`, `Ongoing`, `Failed`, `Complete`, `Final`). -/
inductive Status where
  | Pending
  | Active
  | Ongoing
  | Failed
  | Complete
  | Final
deriving DecidableEq, Repr, Inhabited

/-- The `Step` dataclass: label text, spacing weight, status, cached text
width and cached horizontal position. -/
structure Step where
  text : String := ""
  weight : ℤ := 1
  status : Status := Status.Pending
  width : ℕ := 0
  pos : ℤ := 0
deriving DecidableEq, Repr, Inhabited

/-- `self.textPadding = 20` from `StepProgressBar.__init__`. -/
def textPadding : ℤ := 20

/-- `self.verticalPadding = 4` from `StepProgressBar.__init__`. -/
def verticalPadding : ℤ := 4

/-- `self.indicatorPadding = 6` from `StepProgressBar.__init__`. -/
def indicatorPadding : ℤ := 6

/-- `self.timerStep = 10` from `StepProgressBar.__init__`. -/
def timerStep : ℤ := 10

/-- The `StepProgressBar` state: the ordered step list, the key dictionary
(assoc list, most recent binding first, mirroring dict overwrite), the
active index `self.active`, whether `self.timer` is running, and the font
metrics `self.metrics` abstracted as a text-measuring function. -/
structure StepProgressBar where
  steps : List Step
  keys : List (String × ℤ)
  active : ℤ
  timerRunning : Bool
  metrics : String → ℕ

/-- Fresh widget, as built by `__init__` with no steps: empty step list,
empty key dict, `active = -1`, timer not started. -/
def emptyBar (m : String → ℕ) : StepProgressBar :=
  { steps := [], keys := [], active := -1, timerRunning := false, metrics := m }

/-- Index-aware map over a list, used to model in-place writes
`self.steps[i].status = ...` at selected indices. -/
def mapIdxGo (f : ℕ → α → β) : ℕ → List α → List β
  | _, [] => []
  | i, a :: as => f i a :: mapIdxGo f (i + 1) as

/-- Python list read `l[i]`: negative indices count from the end,
out-of-range indices raise (`none`). -/
def pyGet (l : List α) (i : ℤ) : Option α :=
  let j : ℤ := if i < 0 then (l.length : ℤ) + i else i
  if 0 ≤ j ∧ j < (l.length : ℤ) then l[j.toNat]? else none

/-- Write `status` to the step at signed index `i` (as the loops in
`activateIndex` do; indices produced there are always in range). -/
def setStatusAt (steps : List Step) (i : ℤ) (s : Status) : List Step :=
  mapIdxGo (fun j st => if (j : ℤ) = i then { st with status := s } else st) 0 steps

/-- Write `status` to every step whose index lies in `[lo, hi)`, modelling
`for i in range(lo, hi): self.steps[i].status = s`. -/
def setStatusRange (lo hi : ℤ) (s : Status) (steps : List Step) : List Step :=
  mapIdxGo (fun j st => if lo ≤ (j : ℤ) ∧ (j : ℤ) < hi then { st with status := s } else st)
    0 steps

/-- `updateStepWidth`: `step.width = self.metrics.horizontalAdvance(step.text)`. -/
def updateStepWidth (m : String → ℕ) (step : Step) : Step :=
  { step with width := m step.text }

/-- `addStep(key=None, text='', weight=1)`: build a `Step` (status defaults
to `Pending`), measure its width, append it, and record
`self.keys[key] = len(self.steps) - 1` when a key is given. -/
def addStep (spb : StepProgressBar) (key : Option String) (text : String) (weight : ℤ) :
    StepProgressBar :=
  let step := updateStepWidth spb.metrics { text := text, weight := weight }
  let steps := spb.steps ++ [step]
  let keys := match key with
    | none => spb.keys
    | some k => (k, (steps.length : ℤ) - 1) :: spb.keys
  { spb with steps := steps, keys := keys }

/-- The clamp `min(max(index, -1), len(self.steps))` at the top of
`activateIndex`. -/
def clampIndex (steps : List Step) (i : ℤ) : ℤ :=
  min (max i (-1)) (steps.length : ℤ)

/-- `setStatus(status)`: write `status` to `self.steps[self.active]` when
`0 <= active < len(steps)`, then `self.timer.stop()`. -/
def setStatus (spb : StepProgressBar) (status : Status) : StepProgressBar :=
  let steps :=
    if 0 ≤ spb.active ∧ spb.active < (spb.steps.length : ℤ) then
      setStatusAt spb.steps spb.active status
    else spb.steps
  { spb with steps := steps, timerRunning := false }

/-- `setActive()`: `setStatus(states.Active)` followed by `timer.stop()`. -/
def setActive (spb : StepProgressBar) : StepProgressBar :=
  { setStatus spb Status.Active with timerRunning := false }

/-- `setFailed()`: `setStatus(states.Failed)` followed by `timer.stop()`. -/
def setFailed (spb : StepProgressBar) : StepProgressBar :=
  { setStatus spb Status.Failed with timerRunning := false }

/-- `setOngoing()`: `setStatus(states.Ongoing)` (which stops the timer)
followed by `timer.start(self.timerStep)`. -/
def setOngoing (spb : StepProgressBar) : StepProgressBar :=
  { setStatus spb Status.Ongoing with timerRunning := true }

/-- `activateIndex(index)`: clamp the index, stamp `steps[-1]` `Final`
(raising `IndexError` on an empty step list, hence `none`), stamp
`range(0, index)` `Complete`, stamp `range(index + 1, len(steps) - 1)`
`Pending`, store the clamped index in `self.active`, and call `setActive`.
The three stamping loops run in source order, so a later write overwrites
an earlier one at the same index. -/
def activateIndex (spb : StepProgressBar) (index : ℤ) : Option StepProgressBar :=
  let index := clampIndex spb.steps index
  if spb.steps.isEmpty then none
  else
    let n : ℤ := (spb.steps.length : ℤ)
    let steps := setStatusAt spb.steps (n - 1) Status.Final
    let steps := setStatusRange 0 index Status.Complete steps
    let steps := setStatusRange (index + 1) (n - 1) Status.Pending steps
    some (setActive { spb with steps := steps, active := index })

/-- `activateKey(key)`: `self.keys[key]` when a key is given (a missing key
raises `KeyError`, hence `none`), `-1` for `None`, then `activateIndex`. -/
def activateKey (spb : StepProgressBar) (key : Option String) : Option StepProgressBar :=
  match key with
  | none => activateIndex spb (-1)
  | some k =>
    match spb.keys.lookup k with
    | none => none
    | some i => activateIndex spb i

/-- `activateNext()`: `activateIndex(self.active + 1)`. -/
def activateNext (spb : StepProgressBar) : Option StepProgressBar :=
  activateIndex spb (spb.active + 1)

/-- `activatePrevious()`: `activateIndex(self.active - 1)`. -/
def activatePrevious (spb : StepProgressBar) : Option StepProgressBar :=
  activateIndex spb (spb.active - 1)

/-- Python `int(...)` applied to a (here exact-rational) float: truncation
toward zero, computed as truncating division of numerator by denominator. -/
def pytrunc (q : ℚ) : ℤ :=
  q.num.tdiv q.den

/-- `minimumWidth()`: the sum of all step text widths plus
`textPadding * (len(steps) + 1)`. -/
def minimumWidth (steps : List Step) : ℤ :=
  ((steps.map fun st => (st.width : ℤ)).sum) + textPadding * ((steps.length : ℤ) + 1)

/-- `totalStepWeight = sum(step.weight for step in self.steps[:-1])` from
`draw`. -/
def totalStepWeight (steps : List Step) : ℤ :=
  (steps.dropLast.map Step.weight).sum

/-- The cursor walk of `draw`: for each step advance by `textPadding`, then
half the text width (recording the anchor), then the other half, then the
weight-proportional share of the extra width.  Returns the exact (rational)
anchor of each step in order. -/
def anchorsAux (T E : ℚ) : ℚ → List Step → List ℚ
  | _, [] => []
  | c, st :: rest =>
    let a := c + (textPadding : ℚ) + (st.width : ℚ) / 2
    a :: anchorsAux T E (a + (st.width : ℚ) / 2 + ((st.weight : ℚ) / T) * E) rest

/-- Exact anchors of the layout pass of `draw` for a given available width,
starting from cursor `0`. -/
def anchors (steps : List Step) (W : ℤ) : List ℚ :=
  anchorsAux (totalStepWeight steps : ℚ) ((W - minimumWidth steps : ℤ) : ℚ) 0 steps

/-- The `step.pos` values assigned by the layout pass of `draw`
(`step.pos = int(cursor)`).  The loop divides `step.weight` by
`totalStepWeight` on every iteration, so a nonempty step list raises
`ZeroDivisionError` (`none`) exactly when `totalStepWeight = 0`; an empty
step list never enters the loop. -/
def layoutPositions (steps : List Step) (W : ℤ) : Option (List ℤ) :=
  match steps with
  | [] => some []
  | _ :: _ =>
    if totalStepWeight steps = 0 then none
    else some ((anchors steps W).map pytrunc)

/-- The extra horizontal space the layout leaves between step `i` and step
`i + 1`, beyond the fixed advance `textPadding + width i / 2 + width (i+1) / 2`:
read off from the exact anchors. -/
def gapAfter (steps : List Step) (W : ℤ) (i : ℕ) : ℚ :=
  (anchors steps W).getD (i + 1) 0 - (anchors steps W).getD i 0 - (textPadding : ℚ)
    - ((steps.getD i default).width : ℚ) / 2 - ((steps.getD (i + 1) default).width : ℚ) / 2

/-- Store freshly computed positions into the step records, as the layout
loop of `draw` does with `step.pos = int(cursor)`. -/
def stepsWithPos (steps : List Step) (ps : List ℤ) : List Step :=
  List.zipWith (fun st p => { st with pos := p }) steps ps

/-- `drawStepLines(painter, lineY)`: read the reference anchor
`x = self.steps[self.active].pos` (Python indexing: `-1` is the last step,
`len(steps)` raises `IndexError`, hence `none`), then for each adjacent pair
emit the segment `(isComplete, x1, x2)` with
`x1 = pos1 + indicatorRadius + indicatorPadding`,
`x2 = pos2 - indicatorRadius - indicatorPadding` and `isComplete = (x2 < x)`.
`indicatorRadius` is passed in as `r`.  Modelled from the spec: the `states`
module is not under `src/`, and the spec fixes `indicatorRadius` as a single
constant shared by all statuses, so it is a parameter here. -/
def drawStepLines (r : ℤ) (steps : List Step) (active : ℤ) :
    Option (List (Bool × ℤ × ℤ)) :=
  match pyGet steps active with
  | none => none
  | some refStep =>
    some ((steps.zip steps.tail).map fun sp =>
      (decide (sp.2.pos - r - indicatorPadding < refStep.pos),
       sp.1.pos + r + indicatorPadding,
       sp.2.pos - r - indicatorPadding))

/-- The horizontal part of `draw`: run the layout pass, store the positions,
then compute the step-line segments. -/
def drawModel (r : ℤ) (spb : StepProgressBar) (W : ℤ) : Option (List (Bool × ℤ × ℤ)) :=
  (layoutPositions spb.steps W).bind fun ps =>
    drawStepLines r (stepsWithPos spb.steps ps) spb.active

/-- The status of step `j` after `activateIndex` with clamped index `c` on a
bar of `n` steps, as the amended claim C1 states it: steps before `c` are
`Complete`, the step at `c` is `Active`, later steps are `Pending` except
the last, which is `Final` (so the last step is `Active` when `c = n - 1`
and `Complete` when `c = n`). -/
def expectedStatus (n : ℕ) (c : ℤ) (j : ℕ) : Status :=
  if (j : ℤ) < c then Status.Complete
  else if (j : ℤ) = c then Status.Active
  else if (j : ℤ) < (n : ℤ) - 1 then Status.Pending
  else Status.Final

/-- The controller operations claim C8 ranges over. -/
inductive Op where
  | setOngoing
  | setActive
  | setFailed
  | activateIndex (i : ℤ)
deriving DecidableEq, Repr

/-- Run one controller operation. -/
def applyOp (spb : StepProgressBar) : Op → Option StepProgressBar
  | Op.setOngoing => some (setOngoing spb)
  | Op.setActive => some (setActive spb)
  | Op.setFailed => some (setFailed spb)
  | Op.activateIndex i => activateIndex spb i

/-- Run a sequence of controller operations left to right. -/
def runOps (spb : StepProgressBar) : List Op → Option StepProgressBar
  | [] => some spb
  | op :: rest => (applyOp spb op).bind fun s => runOps s rest

/-- A trivial text-measuring function for concrete test states. -/
def zeroMetrics : String → ℕ := fun _ => 0

/-- One-step bar with key `a`. -/
def exBar1 : StepProgressBar :=
  addStep (emptyBar zeroMetrics) (some "a") "A" 1

/-- Two-step bar, both weight 1, nothing activated yet (`active = -1`). -/
def exBar2 : StepProgressBar :=
  addStep (addStep (emptyBar zeroMetrics) none "A" 1) none "B" 1

/-- The three-step bar of the spec's concrete scenario:
`('input', 1)`, `('align', 3)`, `('export', 1)`. -/
def exBar3 : StepProgressBar :=
  addStep
    (addStep
      (addStep (emptyBar zeroMetrics) (some "input") "Input" 1)
      (some "align") "Align" 3)
    (some "export") "Export" 1

/-- Three zero-width steps whose middle step takes all of the (negative)
extra width: under `W = 0` the computed positions are not monotone, which
exhibits the limits of claim C10. -/
def cexSteps : List Step :=
  [{ text := "", weight := 0, width := 0 },
   { text := "", weight := 100, width := 0 },
   { text := "", weight := 1, width := 0 }]

/-- Bar over `cexSteps` with nothing activated (`active = -1`). -/
def cexBar10 : StepProgressBar :=
  { steps := cexSteps, keys := [], active := -1, timerRunning := false,
    metrics := zeroMetrics }

/-- Two steps with already-computed positions, for exercising
`drawStepLines` directly. -/
def exSteps6 : List Step :=
  [{ text := "A", weight := 1, width := 0, pos := 20 },
   { text := "B", weight := 1, width := 0, pos := 40 }]

/-- Three steps with text widths 10 and weights 1, 3, 1 for the layout-gap
computation. -/
def exSteps7 : List Step :=
  [{ text := "A", weight := 1, width := 10 },
   { text := "B", weight := 3, width := 10 },
   { text := "C", weight := 1, width := 10 }]

@[simp]
lemma length_mapIdxGo (f : ℕ → α → β) :
    ∀ (k : ℕ) (l : List α), (mapIdxGo f k l).length = l.length
  | _, [] => rfl
  | k, _ :: as => by simp [mapIdxGo, length_mapIdxGo f (k + 1) as]

lemma getElem?_mapIdxGo (f : ℕ → α → β) :
    ∀ (k : ℕ) (l : List α) (j : ℕ), (mapIdxGo f k l)[j]? = (l[j]?).map (f (k + j))
  | _, [], j => by simp [mapIdxGo]
  | _, _ :: _, 0 => by simp [mapIdxGo]
  | k, _ :: as, j + 1 => by
      have ih := getElem?_mapIdxGo f (k + 1) as j
      simp only [mapIdxGo, List.getElem?_cons_succ]
      rw [ih, show k + 1 + j = k + (j + 1) from by omega]

@[simp]
lemma length_setStatusAt (l : List Step) (i : ℤ) (s : Status) :
    (setStatusAt l i s).length = l.length := by
  simp [setStatusAt]

lemma getElem?_setStatusAt (l : List Step) (i : ℤ) (s : Status) (j : ℕ) :
    (setStatusAt l i s)[j]? =
      (l[j]?).map fun st => if (j : ℤ) = i then { st with status := s } else st := by
  simp [setStatusAt, getElem?_mapIdxGo]

@[simp]
lemma length_setStatusRange (lo hi : ℤ) (s : Status) (l : List Step) :
    (setStatusRange lo hi s l).length = l.length := by
  simp [setStatusRange]

lemma getElem?_setStatusRange (lo hi : ℤ) (s : Status) (l : List Step) (j : ℕ) :
    (setStatusRange lo hi s l)[j]? =
      (l[j]?).map fun st =>
        if lo ≤ (j : ℤ) ∧ (j : ℤ) < hi then { st with status := s } else st := by
  simp [setStatusRange, getElem?_mapIdxGo]

lemma pyGet_of_nonneg (l : List α) (i : ℤ) (h0 : 0 ≤ i) (h1 : i < (l.length : ℤ)) :
    pyGet l i = l[i.toNat]? := by
  simp only [pyGet]
  rw [if_neg (show ¬i < 0 by omega)]
  rw [if_pos ⟨h0, h1⟩]

lemma pyGet_none_of_le (l : List α) (i : ℤ) (h : (l.length : ℤ) ≤ i) :
    pyGet l i = none := by
  have h0 : (0 : ℤ) ≤ (l.length : ℤ) := by positivity
  simp only [pyGet]
  rw [if_neg (show ¬i < 0 by omega)]
  rw [if_neg (show ¬(0 ≤ i ∧ i < (l.length : ℤ)) by omega)]

lemma pyGet_neg_one (l : List α) (h : l ≠ []) :
    pyGet l (-1) = l[l.length - 1]? := by
  have hl : 0 < l.length := List.length_pos.mpr h
  simp only [pyGet]
  rw [if_pos (show (-1 : ℤ) < 0 by omega)]
  rw [if_pos (show 0 ≤ (l.length : ℤ) + -1 ∧ (l.length : ℤ) + -1 < (l.length : ℤ) by omega)]
  congr 1
  omega

lemma clampIndex_bounds (steps : List Step) (i : ℤ) :
    -1 ≤ clampIndex steps i ∧ clampIndex steps i ≤ (steps.length : ℤ) := by
  simp only [clampIndex]
  omega

lemma clampIndex_idem (steps : List Step) (i : ℤ) :
    clampIndex steps (clampIndex steps i) = clampIndex steps i := by
  simp only [clampIndex]
  omega

/-- Full characterization of `activateIndex` on a nonempty bar: it succeeds,
clamps and stores the index, stops the timer, and rewrites every status to
`expectedStatus` while preserving all other step fields. -/
lemma activateIndex_eq (spb : StepProgressBar) (i : ℤ) (h : spb.steps ≠ []) :
    ∃ out, activateIndex spb i = some out ∧
      out.active = clampIndex spb.steps i ∧
      out.timerRunning = false ∧
      out.keys = spb.keys ∧
      out.steps.length = spb.steps.length ∧
      ∀ j : ℕ, out.steps[j]? = (spb.steps[j]?).map
        fun st =>
          { st with status := expectedStatus spb.steps.length (clampIndex spb.steps i) j } := by
  have hne : spb.steps.isEmpty = false := by
    simp [List.isEmpty_iff, h]
  obtain ⟨hb1, hb2⟩ := clampIndex_bounds spb.steps i
  have hnpos : 0 < spb.steps.length := List.length_pos.mpr h
  simp only [activateIndex, hne, Bool.false_eq_true, if_false]
  refine ⟨_, rfl, rfl, rfl, rfl, ?_, ?_⟩
  · simp only [setActive, setStatus]
    split_ifs <;> simp
  · intro j
    simp only [setActive, setStatus, length_setStatusRange, length_setStatusAt]
    by_cases hP : 0 ≤ clampIndex spb.steps i ∧
        clampIndex spb.steps i < (spb.steps.length : ℤ)
    · rw [if_pos hP, getElem?_setStatusAt, getElem?_setStatusRange, getElem?_setStatusRange,
        getElem?_setStatusAt]
      rcases hx : spb.steps[j]? with _ | st
      · rfl
      · have hj : j < spb.steps.length := (List.getElem?_eq_some_iff.mp hx).1
        simp only [Option.map_some', expectedStatus]
        split_ifs <;> first | rfl | (exfalso; omega)
    · rw [if_neg hP, getElem?_setStatusRange, getElem?_setStatusRange, getElem?_setStatusAt]
      rcases hx : spb.steps[j]? with _ | st
      · rfl
      · have hj : j < spb.steps.length := (List.getElem?_eq_some_iff.mp hx).1
        simp only [Option.map_some', expectedStatus]
        split_ifs <;> first | rfl | (exfalso; omega)

lemma addStep_status_pending (spb : StepProgressBar) (key : Option String) (t : String)
    (w : ℤ) (hall : ∀ st ∈ spb.steps, st.status = Status.Pending) :
    ∀ st ∈ (addStep spb key t w).steps, st.status = Status.Pending := by
  intro st hst
  simp only [addStep] at hst
  rcases List.mem_append.mp hst with h1 | h2
  · exact hall st h1
  · simp only [List.mem_singleton] at h2
    subst h2
    rfl

lemma applyOp_eq (spb : StepProgressBar) (op : Op) (h : spb.steps ≠ []) :
    ∃ out, applyOp spb op = some out ∧ out.steps.length = spb.steps.length ∧
      out.timerRunning = decide (op = Op.setOngoing) := by
  cases op with
  | setOngoing =>
    refine ⟨_, rfl, ?_, by simp [setOngoing]⟩
    simp only [setOngoing, setStatus]
    split_ifs <;> simp
  | setActive =>
    refine ⟨_, rfl, ?_, by simp [setActive]⟩
    simp only [setActive, setStatus]
    split_ifs <;> simp
  | setFailed =>
    refine ⟨_, rfl, ?_, by simp [setFailed]⟩
    simp only [setFailed, setStatus]
    split_ifs <;> simp
  | activateIndex i =>
    obtain ⟨out, h1, _, htimer, _, hlen, _⟩ := activateIndex_eq spb i h
    exact ⟨out, h1, hlen, by simp [htimer]⟩

/-- C1 (amended): after `activateIndex(i)` on a nonempty bar, with `c` the
clamp of `i` into `[-1, len]`: steps before `c` are `Complete`, the step at
`c` (when in range) is `Active`, steps after `c` are `Pending` except the
last, which is `Final` only when `c < len - 1` — when `c = len - 1` the
last step ends `Active` and when `c = len` it ends `Complete`, because
`setActive` and the `Complete` loop run after the `Final` stamp.  The
stored active index is the clamped `i`. -/
theorem activateIndex_statuses (spb : StepProgressBar) (i : ℤ) (h : spb.steps ≠ []) :
    ∃ out, activateIndex spb i = some out ∧
      out.active = clampIndex spb.steps i ∧
      out.steps.map Step.status =
        (List.range spb.steps.length).map
          (expectedStatus spb.steps.length (clampIndex spb.steps i)) := by
  obtain ⟨out, h1, h2, _, _, hlen, hget⟩ := activateIndex_eq spb i h
  refine ⟨out, h1, h2, ?_⟩
  apply List.ext_getElem?
  intro j
  rw [List.getElem?_map, List.getElem?_map, hget j]
  by_cases hj : j < spb.steps.length
  · rw [List.getElem?_eq_getElem hj, List.getElem?_eq_getElem (by simpa using hj)]
    simp
  · rw [List.getElem?_eq_none (by omega), List.getElem?_eq_none (by simp; omega)]
    rfl

/-- C1 witness: the spec's own scenario, `activateIndex 1` on the
three-step bar. -/
theorem activateIndex_statuses_witness :
    exBar3.steps ≠ [] ∧
    ∃ out, activateIndex exBar3 1 = some out ∧
      out.active = clampIndex exBar3.steps 1 ∧
      out.steps.map Step.status =
        (List.range exBar3.steps.length).map
          (expectedStatus exBar3.steps.length (clampIndex exBar3.steps 1)) :=
  ⟨by decide, activateIndex_statuses exBar3 1 (by decide)⟩

/-- C1 counterexample: on a one-step bar, `activateIndex 0` leaves the last
(only) step `Active`, not `Final`, contradicting "the last step has status
Final". -/
theorem activateIndex_last_not_final :
    ((activateIndex exBar1 0).bind fun out => out.steps.getLast?.map Step.status) ≠
      some Status.Final := by
  decide

/-- C2 (amended): `addStep` alone never assigns `Final`: starting from an
empty bar, after any sequence of `addStep` calls every step still has
status `Pending`; `Final` only ever appears through `activateIndex`. -/
theorem addStep_all_pending (m : String → ℕ) (args : List (Option String × String × ℤ)) :
    ((args.foldl (fun spb a => addStep spb a.1 a.2.1 a.2.2) (emptyBar m)).steps.all
      fun st => st.status == Status.Pending) = true := by
  suffices hgen : ∀ spb : StepProgressBar, (∀ st ∈ spb.steps, st.status = Status.Pending) →
      ((args.foldl (fun spb a => addStep spb a.1 a.2.1 a.2.2) spb).steps.all
        fun st => st.status == Status.Pending) = true by
    exact hgen (emptyBar m) (by intro st hst; simp [emptyBar] at hst)
  induction args with
  | nil =>
    intro spb hall
    simpa [List.all_eq_true] using hall
  | cons a rest ih =>
    intro spb hall
    exact ih _ (addStep_status_pending _ _ _ _ hall)

/-- C2 counterexample: after a single `addStep` on an empty bar, no step
carries `Final` (the count is 0, not 1). -/
theorem addStep_no_final_cex :
    ((addStep (emptyBar zeroMetrics) none "A" 1).steps.countP
      fun st => st.status == Status.Final) ≠ 1 := by
  decide

/-- C3 (amended): `activateKey` with key `None` is `activateIndex(-1)`, and
after `addStep` with key `k` at position `p`, `activateKey k` is exactly
`activateIndex p`; but an unregistered non-`None` key raises `KeyError`
(see the counterexample) instead of defaulting to `-1`. -/
theorem activateKey_roundtrip (spb : StepProgressBar) (k t : String) (w : ℤ) :
    activateKey (addStep spb (some k) t w) (some k) =
      activateIndex (addStep spb (some k) t w) (spb.steps.length : ℤ) ∧
    activateKey spb none = activateIndex spb (-1) := by
  refine ⟨?_, rfl⟩
  simp only [activateKey, addStep, List.lookup, beq_self_eq_true]
  congr 1
  simp only [List.length_append, List.length_cons, List.length_nil]
  push_cast
  omega

/-- C3 counterexample: a key never registered raises `KeyError` (`none`),
while deactivation `activateIndex(-1)` would have succeeded — so missing
keys do not "default to deactivation". -/
theorem activateKey_missing_key :
    activateKey exBar1 (some "x") = none ∧ (activateIndex exBar1 (-1)).isSome = true := by
  constructor
  · rfl
  · decide

/-- C5 (amended): on a nonempty bar, `activateIndex i` never fails, for any
`i` however far out of range, and equals `activateIndex` at the clamped
index; on the empty bar every `activateIndex` call fails (see the
counterexample), because `self.steps[-1]` raises `IndexError` before the
loops run. -/
theorem activateIndex_clamped (spb : StepProgressBar) (i : ℤ) (h : spb.steps ≠ []) :
    (activateIndex spb i).isSome = true ∧
      activateIndex spb i = activateIndex spb (clampIndex spb.steps i) := by
  constructor
  · obtain ⟨out, h1, _⟩ := activateIndex_eq spb i h
    simp [h1]
  · simp only [activateIndex, clampIndex_idem]

/-- C5 witness: a far out-of-range index on the two-step bar. -/
theorem activateIndex_clamped_witness :
    exBar2.steps ≠ [] ∧
    ((activateIndex exBar2 1000).isSome = true ∧
      activateIndex exBar2 1000 = activateIndex exBar2 (clampIndex exBar2.steps 1000)) :=
  ⟨by decide, activateIndex_clamped exBar2 1000 (by decide)⟩

/-- C5 counterexample: on the empty bar (which the claim explicitly
includes), `activateIndex 0` raises `IndexError` at `self.steps[-1]`. -/
theorem activateIndex_empty_none :
    activateIndex (emptyBar zeroMetrics) 0 = none := by
  rfl

/-- C8 (confirmed): running any nonempty sequence of
`setOngoing`/`setActive`/`setFailed`/`activateIndex` operations on a
nonempty bar succeeds, and the repaint timer is running afterwards iff the
last operation was `setOngoing`. -/
theorem timer_iff_last_ongoing (spb : StepProgressBar) (ops : List Op)
    (h : spb.steps ≠ []) (hops : ops ≠ []) :
    ∃ out, runOps spb ops = some out ∧
      (out.timerRunning = true ↔ ops.getLast? = some Op.setOngoing) := by
  induction ops generalizing spb with
  | nil => exact absurd rfl hops
  | cons a rest ih =>
    obtain ⟨s1, ha, hlen, htimer⟩ := applyOp_eq spb a h
    cases rest with
    | nil =>
      refine ⟨s1, ?_, ?_⟩
      · show (applyOp spb a).bind (fun s => runOps s []) = some s1
        rw [ha]
        rfl
      · rw [htimer]
        simp
    | cons b t =>
      have h1 : s1.steps ≠ [] := by
        have := List.length_pos.mpr h
        exact List.length_pos.mp (by omega)
      obtain ⟨out, hrun, hiff⟩ := ih s1 h1 (by simp)
      refine ⟨out, ?_, ?_⟩
      · show (applyOp spb a).bind (fun s => runOps s (b :: t)) = some out
        rw [ha]
        exact hrun
      · rw [List.getLast?_cons_cons]
        exact hiff

/-- C8 witness: `setOngoing` then `setActive` on the one-step bar leaves
the timer stopped. -/
theorem timer_iff_last_ongoing_witness :
    exBar1.steps ≠ [] ∧ ([Op.setOngoing, Op.setActive] : List Op) ≠ [] ∧
    ∃ out, runOps exBar1 [Op.setOngoing, Op.setActive] = some out ∧
      (out.timerRunning = true ↔
        ([Op.setOngoing, Op.setActive] : List Op).getLast? = some Op.setOngoing) :=
  ⟨by decide, by decide, timer_iff_last_ongoing exBar1 _ (by decide) (by decide)⟩

/-- C9 (confirmed): `activateIndex` accepts `len(steps)` unchanged (its
clamp keeps it), and with `active = len(steps)` the `drawStepLines` pass
fails at `self.steps[self.active]` (`IndexError`) no matter what positions
the layout pass produced — drawing is not total over the accepted range of
`active`. -/
theorem draw_fails_after_activate_length (spb : StepProgressBar) (h : spb.steps ≠ []) :
    ∃ out, activateIndex spb (spb.steps.length : ℤ) = some out ∧
      out.active = (spb.steps.length : ℤ) ∧
      ∀ (r : ℤ) (ps : List ℤ),
        drawStepLines r (stepsWithPos out.steps ps) out.active = none := by
  obtain ⟨out, h1, h2, _, _, hlen, _⟩ := activateIndex_eq spb (spb.steps.length : ℤ) h
  have hc : clampIndex spb.steps (spb.steps.length : ℤ) = (spb.steps.length : ℤ) := by
    simp only [clampIndex]
    omega
  refine ⟨out, h1, by rw [h2, hc], ?_⟩
  intro r ps
  have hle : ((stepsWithPos out.steps ps).length : ℤ) ≤ out.active := by
    rw [h2, hc]
    simp only [stepsWithPos, List.length_zipWith]
    omega
  rw [drawStepLines, pyGet_none_of_le _ _ hle]

/-- C9 witness: the two-step bar after `activateIndex 2`. -/
theorem draw_fails_after_activate_length_witness :
    exBar2.steps ≠ [] ∧
    ∃ out, activateIndex exBar2 (exBar2.steps.length : ℤ) = some out ∧
      out.active = (exBar2.steps.length : ℤ) ∧
      ∀ (r : ℤ) (ps : List ℤ),
        drawStepLines r (stepsWithPos out.steps ps) out.active = none :=
  ⟨by decide, draw_fails_after_activate_length exBar2 (by decide)⟩

lemma length_anchorsAux (T E : ℚ) :
    ∀ (c : ℚ) (steps : List Step), (anchorsAux T E c steps).length = steps.length
  | _, [] => rfl
  | c, st :: rest => by simp [anchorsAux, length_anchorsAux]

/-- C4 (amended): the layout pass of `draw` divides by `totalStepWeight` on
every iteration without any guard, so on a nonempty step list with
`totalStepWeight = 0` (for example a single step) it raises
`ZeroDivisionError` instead of degrading to zero extra spacing; it
completes (producing one position per step) exactly when
`totalStepWeight ≠ 0`. -/
theorem layout_zero_weight (steps : List Step) (W : ℤ) (h : steps ≠ []) :
    (totalStepWeight steps = 0 → layoutPositions steps W = none) ∧
    (totalStepWeight steps ≠ 0 →
      ∃ ps, layoutPositions steps W = some ps ∧ ps.length = steps.length) := by
  obtain ⟨a, as, rfl⟩ := List.exists_cons_of_ne_nil h
  constructor
  · intro hT
    simp [layoutPositions, hT]
  · intro hT
    refine ⟨(anchors (a :: as) W).map pytrunc, ?_, ?_⟩
    · simp [layoutPositions, hT]
    · simp [anchors, length_anchorsAux]

/-- C4 witness: a single-step bar has `totalStepWeight = 0` and its layout
fails. -/
theorem layout_zero_weight_witness :
    exBar1.steps ≠ [] ∧
    ((totalStepWeight exBar1.steps = 0 → layoutPositions exBar1.steps 100 = none) ∧
     (totalStepWeight exBar1.steps ≠ 0 →
       ∃ ps, layoutPositions exBar1.steps 100 = some ps ∧
         ps.length = exBar1.steps.length)) :=
  ⟨by decide, layout_zero_weight exBar1.steps 100 (by decide)⟩

/-- C4 counterexample: with a single step the layout pass fails
(`ZeroDivisionError`) instead of skipping the proportional term as the
claim states. -/
theorem layout_single_step_none : layoutPositions exBar1.steps 100 = none := by
  decide

lemma anchorsAux_getD_succ (T E : ℚ) :
    ∀ (steps : List Step) (c : ℚ) (i : ℕ), i + 1 < steps.length →
      (anchorsAux T E c steps).getD (i + 1) 0 =
        (anchorsAux T E c steps).getD i 0 + ((steps.getD i default).width : ℚ) / 2
          + (((steps.getD i default).weight : ℚ) / T) * E + (textPadding : ℚ)
          + ((steps.getD (i + 1) default).width : ℚ) / 2
  | [], _, i, h => by simp at h
  | [st], _, i, h => by
      exact absurd h (by simp)
  | st :: st2 :: rest, c, 0, _ => by
      simp only [anchorsAux, List.getD_cons_succ, List.getD_cons_zero]
      try ring
  | st :: st2 :: rest, c, i + 1, h => by
      have ih := anchorsAux_getD_succ T E (st2 :: rest)
        (c + (textPadding : ℚ) + (st.width : ℚ) / 2 + (st.width : ℚ) / 2
          + ((st.weight : ℚ) / T) * E) i (by simpa using h)
      simp only [anchorsAux, List.getD_cons_succ]
      exact ih

lemma sum_range_getD (f : Step → ℚ) :
    ∀ l : List Step,
      (Finset.range l.length).sum (fun i => f (l.getD i default)) = (l.map f).sum
  | [] => by simp
  | a :: l => by
      rw [List.length_cons, Finset.sum_range_succ']
      simp only [List.getD_cons_succ, List.getD_cons_zero, List.map_cons, List.sum_cons]
      rw [sum_range_getD f l]
      ring

lemma sum_map_div_mul (T E : ℚ) :
    ∀ l : List Step,
      (l.map fun st => ((st.weight : ℚ) / T) * E).sum =
        ((l.map fun st => ((st.weight : ℚ))).sum) / T * E
  | [] => by simp
  | a :: l => by
      simp only [List.map_cons, List.sum_cons, sum_map_div_mul T E l]
      ring

lemma cast_sum_weights :
    ∀ l : List Step, (((l.map Step.weight).sum : ℤ) : ℚ) =
      (l.map fun st => ((st.weight : ℚ))).sum
  | [] => by simp
  | a :: l => by
      simp only [List.map_cons, List.sum_cons]
      push_cast [cast_sum_weights l]
      ring

lemma getD_dropLast (l : List Step) (i : ℕ) (h : i < l.length - 1) :
    l.dropLast.getD i default = l.getD i default := by
  rw [List.getD_eq_getElem?_getD, List.getD_eq_getElem?_getD, List.getElem?_dropLast,
    if_pos h]

lemma totalStepWeight_def (steps : List Step) :
    totalStepWeight steps = (steps.dropLast.map Step.weight).sum := rfl

/-- C7 (confirmed): with positive total weight over all steps but the last
and `W ≥ minimumWidth`, the extra spacing the cursor walk of `draw` inserts
after step `i` (beyond `textPadding` and the two half text widths) is
exactly `weight i / totalStepWeight * (W - minimumWidth)`, and these gaps
summed over all steps except the last add up to exactly
`W - minimumWidth`. -/
theorem layout_gaps_sum (steps : List Step) (W : ℤ)
    (hT : 0 < totalStepWeight steps) (hW : minimumWidth steps ≤ W) :
    (∀ i : ℕ, i + 1 < steps.length →
      gapAfter steps W i =
        ((steps.getD i default).weight : ℚ) / ((totalStepWeight steps : ℤ) : ℚ)
          * (((W - minimumWidth steps : ℤ) : ℤ) : ℚ)) ∧
    (Finset.range (steps.length - 1)).sum (fun i => gapAfter steps W i) =
      (((W - minimumWidth steps : ℤ) : ℤ) : ℚ) := by
  have hgap : ∀ i : ℕ, i + 1 < steps.length →
      gapAfter steps W i =
        ((steps.getD i default).weight : ℚ) / ((totalStepWeight steps : ℤ) : ℚ)
          * (((W - minimumWidth steps : ℤ) : ℤ) : ℚ) := by
    intro i hi
    have hs := anchorsAux_getD_succ ((totalStepWeight steps : ℤ) : ℚ)
      (((W - minimumWidth steps : ℤ) : ℤ) : ℚ) steps 0 i hi
    simp only [gapAfter, anchors]
    rw [hs]
    ring
  refine ⟨hgap, ?_⟩
  have hTQ : ((totalStepWeight steps : ℤ) : ℚ) ≠ 0 := by
    exact_mod_cast hT.ne'
  have hlen : steps.dropLast.length = steps.length - 1 := List.length_dropLast steps
  calc (Finset.range (steps.length - 1)).sum (fun i => gapAfter steps W i)
      = (Finset.range (steps.length - 1)).sum
          (fun i => ((steps.getD i default).weight : ℚ)
            / ((totalStepWeight steps : ℤ) : ℚ) * (((W - minimumWidth steps : ℤ) : ℤ) : ℚ)) := by
        apply Finset.sum_congr rfl
        intro i hi
        exact hgap i (by have := Finset.mem_range.mp hi; omega)
    _ = (Finset.range steps.dropLast.length).sum
          (fun i => ((steps.dropLast.getD i default).weight : ℚ)
            / ((totalStepWeight steps : ℤ) : ℚ) * (((W - minimumWidth steps : ℤ) : ℤ) : ℚ)) := by
        rw [hlen]
        apply Finset.sum_congr rfl
        intro i hi
        rw [getD_dropLast steps i (Finset.mem_range.mp hi)]
    _ = (steps.dropLast.map (fun st => ((st.weight : ℚ))
            / ((totalStepWeight steps : ℤ) : ℚ) * (((W - minimumWidth steps : ℤ) : ℤ) : ℚ))).sum := by
        rw [← sum_range_getD]
    _ = (((W - minimumWidth steps : ℤ) : ℤ) : ℚ) := by
        rw [sum_map_div_mul, ← cast_sum_weights, ← totalStepWeight_def, div_self hTQ, one_mul]

/-- C7 witness: three steps of widths 10 and weights 1, 3, 1 with 40 pixels
of extra width. -/
theorem layout_gaps_sum_witness :
    0 < totalStepWeight exSteps7 ∧ minimumWidth exSteps7 ≤ 150 ∧
    ((∀ i : ℕ, i + 1 < exSteps7.length →
      gapAfter exSteps7 150 i =
        ((exSteps7.getD i default).weight : ℚ) / ((totalStepWeight exSteps7 : ℤ) : ℚ)
          * (((150 - minimumWidth exSteps7 : ℤ) : ℤ) : ℚ)) ∧
    (Finset.range (exSteps7.length - 1)).sum (fun i => gapAfter exSteps7 150 i) =
      (((150 - minimumWidth exSteps7 : ℤ) : ℤ) : ℚ)) :=
  ⟨by decide, by decide, layout_gaps_sum exSteps7 150 (by decide) (by decide)⟩

lemma zip_tail_getElem? :
    ∀ (l : List Step) (j : ℕ), j + 1 < l.length →
      (l.zip l.tail)[j]? = some (l.getD j default, l.getD (j + 1) default)
  | [], j, h => by simp at h
  | [a], j, h => by exact absurd h (by simp)
  | a :: b :: t, 0, _ => by
      simp [List.zip_cons_cons]
  | a :: b :: t, j + 1, h => by
      have ih := zip_tail_getElem? (b :: t) j (by simpa using h)
      simp only [List.tail_cons, List.zip_cons_cons, List.getElem?_cons_succ,
        List.getD_cons_succ]
      simpa using ih

/-- C6 (confirmed): for a valid active index, `drawStepLines` emits one
segment per adjacent pair, with endpoints
`x1 = pos i + indicatorRadius + indicatorPadding` and
`x2 = pos (i+1) - indicatorRadius - indicatorPadding`, and marks the
segment complete (bold) iff its right endpoint `x2` is strictly left of
the active step's anchor position. -/
theorem drawStepLines_complete_iff (r : ℤ) (steps : List Step) (active : ℤ)
    (h0 : 0 ≤ active) (h1 : active < (steps.length : ℤ)) :
    ∃ segs, drawStepLines r steps active = some segs ∧
      segs.length = steps.length - 1 ∧
      ∀ j : ℕ, j + 1 < steps.length →
        segs[j]? = some
          (decide ((steps.getD (j + 1) default).pos - r - indicatorPadding <
              (steps.getD active.toNat default).pos),
            (steps.getD j default).pos + r + indicatorPadding,
            (steps.getD (j + 1) default).pos - r - indicatorPadding) := by
  have htn : active.toNat < steps.length := by omega
  have hget : pyGet steps active = some (steps.getD active.toNat default) := by
    rw [pyGet_of_nonneg steps active h0 h1, List.getElem?_eq_getElem htn,
      List.getD_eq_getElem?_getD, List.getElem?_eq_getElem htn]
    rfl
  refine ⟨_, by rw [drawStepLines, hget], ?_, ?_⟩
  · simp only [List.length_map, List.length_zip, List.length_tail]
    omega
  · intro j hj
    rw [List.getElem?_map, zip_tail_getElem? steps j hj]
    rfl

/-- C6 witness: two laid-out steps with the second one active; the single
segment is complete since `40 - r - 6 < 40`. -/
theorem drawStepLines_complete_iff_witness :
    0 ≤ (1 : ℤ) ∧ (1 : ℤ) < (exSteps6.length : ℤ) ∧
    ∃ segs, drawStepLines 5 exSteps6 1 = some segs ∧
      segs.length = exSteps6.length - 1 ∧
      ∀ j : ℕ, j + 1 < exSteps6.length →
        segs[j]? = some
          (decide ((exSteps6.getD (j + 1) default).pos - 5 - indicatorPadding <
              (exSteps6.getD (1 : ℤ).toNat default).pos),
            (exSteps6.getD j default).pos + 5 + indicatorPadding,
            (exSteps6.getD (j + 1) default).pos - 5 - indicatorPadding) :=
  ⟨by decide, by decide, drawStepLines_complete_iff 5 exSteps6 1 (by decide) (by decide)⟩

lemma pytrunc_eq (q : ℚ) : pytrunc q = if 0 ≤ q then ⌊q⌋ else ⌈q⌉ := by
  unfold pytrunc
  split_ifs with h
  · rw [Rat.floor_def]
    exact Int.tdiv_eq_ediv (Rat.num_nonneg.mpr h) (by positivity)
  · have h3 : ¬(0 : ℤ) ≤ q.num := fun hc => h (Rat.num_nonneg.mp hc)
    have h2 : (0 : ℤ) ≤ -q.num := by omega
    rw [show (⌈q⌉ : ℤ) = -⌊-q⌋ by rw [Int.floor_neg]; simp]
    rw [Rat.floor_def, Rat.num_neg_eq_neg_num, Rat.den_neg_eq_den]
    rw [show q.num.tdiv (q.den : ℤ) = -((-q.num).tdiv (q.den : ℤ)) by
      rw [Int.neg_tdiv, neg_neg]]
    rw [Int.tdiv_eq_ediv h2 (by positivity)]

lemma pytrunc_mono {a b : ℚ} (h : a ≤ b) : pytrunc a ≤ pytrunc b := by
  rw [pytrunc_eq, pytrunc_eq]
  split_ifs with ha hb hb
  · exact Int.floor_le_floor h
  · exact absurd (ha.trans h) hb
  · refine le_trans (Int.ceil_le.mpr ?_) (Int.floor_nonneg.mpr hb)
    exact_mod_cast le_of_not_le ha
  · exact Int.ceil_le_ceil h

lemma layoutPositions_eq (steps : List Step) (W : ℤ) (h : steps ≠ [])
    (hT : totalStepWeight steps ≠ 0) :
    layoutPositions steps W = some ((anchors steps W).map pytrunc) := by
  obtain ⟨a, as, rfl⟩ := List.exists_cons_of_ne_nil h
  simp [layoutPositions, hT]

lemma anchors_getD_mono (steps : List Step) (W : ℤ)
    (hw : ∀ st ∈ steps, 0 ≤ st.weight) (hT : 0 < totalStepWeight steps)
    (hW : minimumWidth steps ≤ W) :
    ∀ i j : ℕ, i ≤ j → j < steps.length →
      (anchors steps W).getD i 0 ≤ (anchors steps W).getD j 0 := by
  have hsucc : ∀ i : ℕ, i + 1 < steps.length →
      (anchors steps W).getD i 0 ≤ (anchors steps W).getD (i + 1) 0 := by
    intro i hi
    have hs := anchorsAux_getD_succ ((totalStepWeight steps : ℤ) : ℚ)
      (((W - minimumWidth steps : ℤ) : ℤ) : ℚ) steps 0 i hi
    simp only [anchors]
    rw [hs]
    have hmem : steps.getD i default ∈ steps := by
      rw [List.getD_eq_getElem?_getD, List.getElem?_eq_getElem (by omega)]
      exact List.getElem_mem _
    have hw1 : (0 : ℚ) ≤ ((steps.getD i default).width : ℚ) / 2 := by positivity
    have hw2 : (0 : ℚ) ≤ (((steps.getD i default).weight : ℚ)
        / ((totalStepWeight steps : ℤ) : ℚ)) * (((W - minimumWidth steps : ℤ) : ℤ) : ℚ) := by
      apply mul_nonneg
      · apply div_nonneg
        · exact_mod_cast hw _ hmem
        · exact_mod_cast hT.le
      · exact_mod_cast (show (0 : ℤ) ≤ W - minimumWidth steps by omega)
    have hpad : (0 : ℚ) < ((textPadding : ℤ) : ℚ) := by norm_num [textPadding]
    have hw3 : (0 : ℚ) ≤ ((steps.getD (i + 1) default).width : ℚ) / 2 := by positivity
    linarith
  intro i j hij hj
  induction j, hij using Nat.le_induction with
  | base => exact le_refl _
  | succ j hij ih => exact le_trans (ih (by omega)) (hsucc j (by omega))

lemma stepsWithPos_pos_getD (steps : List Step) (ps : List ℤ) (k : ℕ)
    (h1 : k < steps.length) (h2 : k < ps.length) :
    ((stepsWithPos steps ps).getD k default).pos = ps.getD k 0 := by
  have hk : k < (stepsWithPos steps ps).length := by
    simp only [stepsWithPos, List.length_zipWith]
    omega
  rw [List.getD_eq_getElem?_getD, List.getElem?_eq_getElem hk,
    List.getD_eq_getElem?_getD, List.getElem?_eq_getElem h2]
  simp [stepsWithPos, List.getElem_zipWith]

/-- C10 (amended): when nothing is activated (`active = -1`), Python's
negative indexing makes `drawStepLines` silently use the LAST step as the
reference anchor.  Provided the layout succeeds (positive total weight,
nonnegative weights) and the bar is at least as wide as `minimumWidth`
(so the computed anchors are monotone), every segment's right endpoint
`pos - indicatorRadius - indicatorPadding` lies strictly left of that
anchor, so with `indicatorRadius ≥ 0` every segment is drawn in the bold
"complete" style although no step is `Active` or `Complete`.  (When the
bar is narrower than `minimumWidth` the anchors need not be monotone and
some segment can render in the base style — see the counterexample.) -/
theorem drawStepLines_all_bold_inactive (r : ℤ) (spb : StepProgressBar) (W : ℤ)
    (hr : 0 ≤ r) (hlen : 2 ≤ spb.steps.length)
    (hw : ∀ st ∈ spb.steps, 0 ≤ st.weight)
    (hT : 0 < totalStepWeight spb.steps)
    (hW : minimumWidth spb.steps ≤ W)
    (ha : spb.active = -1) :
    ∃ segs, drawModel r spb W = some segs ∧
      segs.length = spb.steps.length - 1 ∧
      ∀ seg ∈ segs, seg.1 = true := by
  have hne : spb.steps ≠ [] := by
    intro hnil
    rw [hnil] at hlen
    simp at hlen
  have hpslen : ((anchors spb.steps W).map pytrunc).length = spb.steps.length := by
    simp [anchors, length_anchorsAux]
  set ps : List ℤ := (anchors spb.steps W).map pytrunc with hps
  set steps' : List Step := stepsWithPos spb.steps ps with hsteps'
  have hlen' : steps'.length = spb.steps.length := by
    simp only [hsteps', stepsWithPos, List.length_zipWith, hpslen, hps]
    omega
  have hne' : steps' ≠ [] := by
    intro hnil
    rw [hnil] at hlen'
    simp at hlen'
    omega
  have hposk : ∀ k : ℕ, k < spb.steps.length →
      (steps'.getD k default).pos = pytrunc ((anchors spb.steps W).getD k 0) := by
    intro k hk
    rw [hsteps', stepsWithPos_pos_getD spb.steps ps k hk (by omega), hps,
      List.getD_eq_getElem?_getD, List.getElem?_map,
      List.getElem?_eq_getElem (show k < (anchors spb.steps W).length by
        simp [anchors, length_anchorsAux]; omega)]
    rw [List.getD_eq_getElem?_getD,
      List.getElem?_eq_getElem (show k < (anchors spb.steps W).length by
        simp [anchors, length_anchorsAux]; omega)]
    rfl
  have href : pyGet steps' spb.active = some (steps'.getD (spb.steps.length - 1) default) := by
    rw [ha, pyGet_neg_one steps' hne', hlen',
      List.getD_eq_getElem?_getD, List.getElem?_eq_getElem (by omega)]
    rfl
  have hdraw : drawStepLines r steps' spb.active =
      some ((steps'.zip steps'.tail).map fun sp =>
        (decide (sp.2.pos - r - indicatorPadding <
          (steps'.getD (spb.steps.length - 1) default).pos),
         sp.1.pos + r + indicatorPadding,
         sp.2.pos - r - indicatorPadding)) := by
    rw [drawStepLines, href]
  have hfull : drawModel r spb W =
      some ((steps'.zip steps'.tail).map fun sp =>
        (decide (sp.2.pos - r - indicatorPadding <
          (steps'.getD (spb.steps.length - 1) default).pos),
         sp.1.pos + r + indicatorPadding,
         sp.2.pos - r - indicatorPadding)) := by
    rw [drawModel, layoutPositions_eq spb.steps W hne hT.ne', ← hps, Option.some_bind,
      ← hsteps', hdraw]
  refine ⟨_, hfull, ?_, ?_⟩
  · simp only [List.length_map, List.length_zip, List.length_tail, hlen']
    omega
  · intro seg hseg
    obtain ⟨j, hj⟩ := List.mem_iff_getElem?.mp hseg
    have hjlt : j < ((steps'.zip steps'.tail).map fun sp =>
        (decide (sp.2.pos - r - indicatorPadding <
          (steps'.getD (spb.steps.length - 1) default).pos),
         sp.1.pos + r + indicatorPadding,
         sp.2.pos - r - indicatorPadding)).length := (List.getElem?_eq_some_iff.mp hj).1
    have hjn : j + 1 < spb.steps.length := by
      simp only [List.length_map, List.length_zip, List.length_tail, hlen'] at hjlt
      omega
    rw [List.getElem?_map, zip_tail_getElem? steps' j (by omega)] at hj
    simp only [Option.map_some', Option.some.injEq] at hj
    have hmono : (steps'.getD (j + 1) default).pos ≤
        (steps'.getD (spb.steps.length - 1) default).pos := by
      rw [hposk (j + 1) (by omega), hposk (spb.steps.length - 1) (by omega)]
      exact pytrunc_mono (anchors_getD_mono spb.steps W hw hT hW (j + 1)
        (spb.steps.length - 1) (by omega) (by omega))
    have hip : indicatorPadding = 6 := rfl
    rw [← hj]
    simp only [decide_eq_true_eq]
    omega

/-- C10 witness: two equal steps at exactly `minimumWidth`, nothing
activated: the single segment renders bold. -/
theorem drawStepLines_all_bold_inactive_witness :
    0 ≤ (0 : ℤ) ∧ 2 ≤ exBar2.steps.length ∧ (∀ st ∈ exBar2.steps, 0 ≤ st.weight) ∧
    0 < totalStepWeight exBar2.steps ∧ minimumWidth exBar2.steps ≤ 60 ∧
    exBar2.active = -1 ∧
    ∃ segs, drawModel 0 exBar2 60 = some segs ∧
      segs.length = exBar2.steps.length - 1 ∧
      ∀ seg ∈ segs, seg.1 = true :=
  ⟨by decide, by decide, by decide, by decide, by decide, by decide,
    drawStepLines_all_bold_inactive 0 exBar2 60 (by decide) (by decide) (by decide)
      (by decide) (by decide) (by decide)⟩

/-- C10 counterexample: with `active = -1` and three steps laid out
narrower than `minimumWidth`, the middle anchor overshoots the last one
and the first segment renders in the base style, not bold — the claim's
"every segment is drawn in the bold complete style" fails as stated. -/
theorem drawStepLines_not_all_bold :
    cexBar10.active = -1 ∧ 2 ≤ cexBar10.steps.length ∧
    ((drawModel 5 cexBar10 0).map fun l => l.map Prod.fst) = some [false, true] := by
  refine ⟨rfl, by decide, ?_⟩
  with_unfolding_all rfl

end SPB
